import Mathlib

/-!
Verification of the prompt-library application: a shallow embedding of the
pure logic of src/utils.py, src/db_operations.py, src/pages/create_page.py
and src/pages/design_prompt_page.py, together with theorems settling the
specification claims about it.

Conventions of the embedding:
* SQLite tables become Lean lists of row structures; `AUTOINCREMENT` ids are
  modelled by an explicit next-id counter carried in the store state.
* Python `Optional` fields become `Option`; SQL `NULL` is `none`.
* HTTP endpoint behaviour is abstracted as an environment function mapping a
  request (url, prompt, model) to an outcome (the parsed `response` field on
  success, an exception message on failure); `created_at` timestamps, which no
  query in the code inspects except for display, are omitted from row types.
* Python float parsing in the judge is abstracted to `Option ℚ` (`none`
  models a `ValueError`); the clamping logic itself is embedded exactly.
-/

/-- Row of the `prompts` table (db_operations.py, init_db): id is the
INTEGER PRIMARY KEY AUTOINCREMENT, `parent_id` is the nullable self
foreign key.  The `created_at` timestamp column is omitted (no query in the
code computes with it). -/
structure PromptRow where
  id : Nat
  name : String
  author : String
  template : String
  example_values : String
  upvotes : Int
  version : Nat
  parent_id : Option Nat
deriving DecidableEq, Repr

/-- Row of the `test_cases` table (db_operations.py, init_db); `prompt_id`
is declared `REFERENCES prompts (id) ON DELETE CASCADE`.  `created_at`
omitted as above. -/
structure TestCaseRow where
  id : Nat
  prompt_id : Nat
  input_values : String
  expected_output : String
deriving DecidableEq, Repr

/-- The database state: both tables plus the AUTOINCREMENT counter for
`prompts.id`. -/
structure DB where
  prompts : List PromptRow
  test_cases : List TestCaseRow
  next_prompt_id : Nat
deriving DecidableEq, Repr

/-- The Python `Prompt` dataclass (db_operations.py lines 6-16).  Unlike a
stored row, `id` and `version` may be `None` here: create_page.py builds a
`Prompt` with `version=None` when editing ("Version will be set in
update_prompt") and with `id=None` before insertion. -/
structure Prompt where
  id : Option Nat
  name : String
  author : String
  template : String
  example_values : String
  upvotes : Int
  version : Option Nat
  parent_id : Option Nat
deriving DecidableEq, Repr

/-- `Prompt.__eq__` (db_operations.py lines 18-31): compares every field
except `id` and `upvotes`. -/
def promptEq (a b : Prompt) : Bool :=
  decide (a.name = b.name) && decide (a.author = b.author) &&
  decide (a.template = b.template) && decide (a.example_values = b.example_values) &&
  decide (a.version = b.version) && decide (a.parent_id = b.parent_id)

/-- `save_prompt` (db_operations.py lines 87-108): plain INSERT of the given
field values; the row id is the AUTOINCREMENT value.  The `version` column is
NOT NULL, so inserting a dataclass whose `version` is `None` would fail;
callers in the app always pass a concrete version, which this embedding takes
as `v`. -/
def save_prompt (db : DB) (p : Prompt) (v : Nat) : DB × Nat :=
  let row : PromptRow :=
    { id := db.next_prompt_id, name := p.name, author := p.author,
      template := p.template, example_values := p.example_values,
      upvotes := p.upvotes, version := v, parent_id := p.parent_id }
  ({ db with prompts := db.prompts ++ [row],
             next_prompt_id := db.next_prompt_id + 1 }, row.id)

/-- `update_prompt` (db_operations.py lines 111-147).  The version lookup is
`SELECT MAX(version) FROM prompts WHERE id = ?` with `prompt.parent_id` as
the parameter: since `id` is the primary key this aggregates over AT MOST ONE
row (the direct parent), not over the whole family.  Python's
`c.fetchone()[0] or 1` maps both SQL NULL (no matching row) and the falsy
value 0 to 1.  A new row is then inserted with `version = latest + 1` and
`parent_id = prompt.parent_id`. -/
def update_prompt (db : DB) (p : Prompt) : DB × Nat :=
  let matching := db.prompts.filter (fun r => decide (p.parent_id = some r.id))
  let maxv : Option Nat := (matching.map (fun r => r.version)).max?
  let latest_version : Nat :=
    match maxv with
    | none => 1
    | some v => if v = 0 then 1 else v
  let row : PromptRow :=
    { id := db.next_prompt_id, name := p.name, author := p.author,
      template := p.template, example_values := p.example_values,
      upvotes := p.upvotes, version := latest_version + 1,
      parent_id := p.parent_id }
  ({ db with prompts := db.prompts ++ [row],
             next_prompt_id := db.next_prompt_id + 1 }, row.id)

/-- `delete_prompt` (db_operations.py lines 167-172): `DELETE FROM prompts
WHERE id = ?`.  The connection opened inside this function never executes
`PRAGMA foreign_keys = ON` (the pragma issued in `init_db` applies only to
`init_db`'s own connection and SQLite disables foreign-key enforcement by
default per connection), so the `ON DELETE CASCADE` declared on
`test_cases.prompt_id` does not fire: the `test_cases` table is left
untouched, and deleting a row that other rows reference via `parent_id`
succeeds silently. -/
def delete_prompt (db : DB) (pid : Nat) : DB :=
  { db with prompts := db.prompts.filter (fun r => decide (r.id ≠ pid)) }

/-- Sort relation realizing `ORDER BY version DESC`. -/
def byVersionDesc : PromptRow → PromptRow → Prop := fun a b => b.version ≤ a.version

instance : DecidableRel byVersionDesc := fun a b => Nat.decLe _ _

instance : IsTotal PromptRow byVersionDesc := ⟨fun a b => Nat.le_total b.version a.version⟩

instance : IsTrans PromptRow byVersionDesc := ⟨fun _ _ _ hab hbc => le_trans hbc hab⟩

/-- Sort relation realizing `ORDER BY upvotes DESC`. -/
def byUpvotesDesc : PromptRow → PromptRow → Prop := fun a b => b.upvotes ≤ a.upvotes

instance : DecidableRel byUpvotesDesc := fun a b => Int.decLe _ _

instance : IsTotal PromptRow byUpvotesDesc := ⟨fun a b => Int.le_total b.upvotes a.upvotes⟩

instance : IsTrans PromptRow byUpvotesDesc := ⟨fun _ _ _ hab hbc => le_trans hbc hab⟩

/-- `get_prompt_versions` (db_operations.py lines 175-192):
`WHERE id = ? OR parent_id = ? OR id IN (SELECT parent_id FROM prompts WHERE
id = ? OR parent_id = ?) ORDER BY version DESC`, all four parameters the
passed prompt id.  The `IN` clause matches those rows whose id is the
(non-NULL) `parent_id` of a row that is the passed row or one of its direct
children. -/
def get_prompt_versions (db : DB) (pid : Nat) : List PromptRow :=
  List.insertionSort byVersionDesc
    (db.prompts.filter (fun r =>
      decide (r.id = pid ∨ r.parent_id = some pid ∨
        ∃ q ∈ db.prompts, (q.id = pid ∨ q.parent_id = some pid) ∧ q.parent_id = some r.id)))

/-- Parent-chain walk underlying the recursive CTE `PromptHierarchy` in
`get_latest_versions` (db_operations.py lines 199-236).  The CTE anchors at
the parent-NULL rows with `(root_id := id, level := 1)` and joins children
one level at a time; on a table with unique primary-key ids this least
fixpoint assigns an entry to a row exactly when its parent chain reaches a
root, with `level` the chain length — which is what walking up the parent
links computes.  Fuel bounded by the table size suffices: a chain that
reaches a root never revisits a row, so its length is at most the number of
rows; a dangling parent or a cycle yields `none`, mirroring the row being
absent from the CTE. -/
def walkUp (prompts : List PromptRow) : Nat → PromptRow → Option (Nat × Nat)
  | 0, _ => none
  | fuel+1, r =>
    match r.parent_id with
    | none => some (r.id, 1)
    | some p =>
      match prompts.find? (fun q => decide (q.id = p)) with
      | none => none
      | some q =>
        match walkUp prompts fuel q with
        | none => none
        | some rl => some (rl.1, rl.2 + 1)

/-- Hierarchy entry `(root_id, level)` of a row, as computed by the
`PromptHierarchy` CTE; `none` models the row being absent from the CTE (a
LEFT-JOIN NULL in `LatestVersions`). -/
def rootLevel (db : DB) (r : PromptRow) : Option (Nat × Nat) :=
  walkUp db.prompts db.prompts.length r

/-- The `PARTITION BY ph.root_id` key of a row in `LatestVersions`; `none`
is the SQL NULL partition collecting every row the hierarchy does not
reach. -/
def hierKey (db : DB) (r : PromptRow) : Option Nat :=
  (rootLevel db r).map Prod.fst

/-- The `ORDER BY ph.level DESC, p.version DESC` sort key of a row inside
its partition.  A NULL level sorts below every numeral under DESC in SQLite,
which `getD 0` realizes (real levels start at 1). -/
def levelKey (db : DB) (r : PromptRow) : Nat × Nat :=
  (((rootLevel db r).map Prod.snd).getD 0, r.version)

/-- Strict lexicographic comparison of `levelKey`s: row `b` outranks row `a`
in the window ordering. -/
def betterRow (db : DB) (a b : PromptRow) : Bool :=
  decide ((levelKey db a).1 < (levelKey db b).1 ∨
    ((levelKey db a).1 = (levelKey db b).1 ∧ (levelKey db a).2 < (levelKey db b).2))

/-- The row given `ROW_NUMBER() = 1` in a partition: the first row in table
order among those maximal for `(level DESC, version DESC)`.  SQL leaves the
order among full ties unspecified; first-in-table-order is the deterministic
stand-in used here. -/
def pickBest (db : DB) : List PromptRow → Option PromptRow
  | [] => none
  | x :: rest =>
    match pickBest db rest with
    | none => some x
    | some b => if betterRow db x b then some b else some x

/-- The `rn = 1` row of the partition keyed `k`. -/
def bestOf (db : DB) (k : Option Nat) : Option PromptRow :=
  pickBest db (db.prompts.filter (fun r => decide (hierKey db r = k)))

/-- `get_latest_versions` (db_operations.py lines 195-239): keep, per
`root_id` partition (including the NULL partition of hierarchy-unreached
rows), the single `rn = 1` row, then `ORDER BY upvotes DESC`. -/
def get_latest_versions (db : DB) : List PromptRow :=
  List.insertionSort byUpvotesDesc
    (db.prompts.filter (fun r => decide (bestOf db (hierKey db r) = some r)))

/-- Well-formedness of one row's version/parent link as the application
maintains it (root rows are saved with version 1 by create_page and
update_prompt inserts each new row with its base row's version plus one):
a parentless row carries version 1, and a row with a parent has a row with
that id in the table and carries that row's version plus one. -/
def versionChainOk (prompts : List PromptRow) (r : PromptRow) : Bool :=
  match r.parent_id with
  | none => decide (r.version = 1)
  | some p => prompts.any (fun q => decide (q.id = p) && decide (r.version = q.version + 1))

/-- The `Prompt` constructed by `_save_or_update_prompt` (create_page.py
lines 154-170) when an `editing_prompt` is present: `id=None`, fresh
user-entered name/author/template/example values, `upvotes` inherited,
`version=None` ("Version will be set in update_prompt") and
`parent_id = editing_prompt.id`. -/
def mkEditedPrompt (editing : Prompt) (name author template example_values : String) : Prompt :=
  { id := none, name := name, author := author, template := template,
    example_values := example_values, upvotes := editing.upvotes,
    version := none, parent_id := editing.id }

/-- The guard of `_save_or_update_prompt` (create_page.py lines 172-176):
`update_prompt` is invoked iff `prompt != editing_prompt`, i.e. insertion is
skipped iff the rebuilt prompt equals the base under `Prompt.__eq__`. -/
def save_skips_insert (editing : Prompt) (name author template example_values : String) : Bool :=
  promptEq (mkEditedPrompt editing name author template example_values) editing

/-- Outcome of one HTTP call in `test_prompt_with_model` (utils.py lines
7-15): `ok s` abstracts a completed POST whose body parsed as JSON with
`response` field `s`; `err m` abstracts any raised exception (transport
error, timeout, non-JSON body, missing field) with message `m`. -/
inductive Outcome where
  | ok : String → Outcome
  | err : String → Outcome
deriving DecidableEq, Repr

/-- Endpoint behaviour: what the world answers to a POST of
`(url, prompt, model)`. -/
def Env : Type := String → String → String → Outcome

/-- `test_prompt_with_model` (utils.py lines 7-15): returns the `response`
field on success and, for any exception `e`, the string `"Error: " + str(e)`
— the function never raises. -/
def test_prompt_with_model (env : Env) (url prompt model : String) : String :=
  match env url prompt model with
  | Outcome.ok s => s
  | Outcome.err m => "Error: " ++ m

/-- The gathered results of `test_multiple_models` (utils.py line 19-20):
`[test_prompt_with_model(url, prompt, model) for url, model in zip(urls, models)]`
awaited together; `zip` truncates to the shorter list. -/
def fanout_results (env : Env) (urls : List String) (prompt : String)
    (models : List String) : List String :=
  (urls.zip models).map (fun um => test_prompt_with_model env um.1 prompt um.2)

/-- One step of Python `dict` construction: overwrite in place when the key
is present, else append. -/
def dictInsert (d : List (String × String)) (k v : String) : List (String × String) :=
  if d.any (fun p => decide (p.1 = k)) then
    d.map (fun p => if p.1 = k then (k, v) else p)
  else d ++ [(k, v)]

/-- Python `dict(pairs)`: later bindings of the same key overwrite earlier
ones. -/
def pyDict (l : List (String × String)) : List (String × String) :=
  l.foldl (fun d kv => dictInsert d kv.1 kv.2) []

/-- Lookup in the association list representing the Python dict. -/
def dictGet (d : List (String × String)) (k : String) : Option String :=
  (d.find? (fun p => decide (p.1 = k))).map Prod.snd

/-- `test_multiple_models` (utils.py lines 18-21): fan out one call per
`zip(urls, models)` pair, await all of them, and return
`dict(zip(models, results))`. -/
def test_multiple_models (env : Env) (urls : List String) (prompt : String)
    (models : List String) : List (String × String) :=
  pyDict (models.zip (fanout_results env urls prompt models))

/-- Loop body of `validate_variables_with_template` (utils.py lines 38-45)
after JSON decoding: walk the extracted variable list and fail on the first
name that is absent, bound to `None`, or bound to the empty string.  The
Jinja2 AST walk of `get_template_variables` (lines 23-36) is abstracted as
the input list `template_vars` (the set's iteration order), and a JSON
`values` mapping as an association list whose `none` values model JSON
`null`. -/
def validate_variables_with_template (template_vars : List String)
    (values : List (String × Option String)) : Bool × String :=
  match template_vars with
  | [] => (true, "")
  | v :: rest =>
    match values.lookup v with
    | none => (false, v)
    | some none => (false, v)
    | some (some s) => if s = "" then (false, v) else validate_variables_with_template rest values

/-- A variable name failing the check of utils.py line 43: not a key of the
mapping, or mapped to `null`, or mapped to the empty string. -/
def offendingVar (values : List (String × Option String)) (v : String) : Bool :=
  match values.lookup v with
  | none => true
  | some none => true
  | some (some s) => decide (s = "")

/-- Score post-processing of `compare_strings_with_llm_judge` (utils.py
lines 91-100): `max(0.0, min(1.0, score))`. -/
def clamp_score (s : ℚ) : ℚ := max 0 (min 1 s)

/-- `compare_strings_with_llm_judge` (utils.py lines 51-100), abstracted
over the judge reply already parsed: `some s` models
`float(score_response.strip().replace(...))` succeeding with value `s`,
`none` models the `ValueError` branch, which returns 0.0.  A successful
parse is clamped to the unit interval. -/
def compare_strings_with_llm_judge (parsed : Option ℚ) : ℚ :=
  match parsed with
  | some s => clamp_score s
  | none => 0

/-- `MAX_ITERATIONS` (design_prompt_page.py line 17). -/
def MAX_ITERATIONS : Nat := 10

/-- What one iteration of the design loop observes from the outside world
(design_prompt_page.py lines 173-256): the candidate template returned by
the design endpoint and the per-test-case judge scores, with 0.0 recorded
for a test case whose rendering or call raised. -/
structure IterObs where
  prompt : String
  scores : List ℚ
deriving Repr

/-- Terminal state of the design loop per spec §4.8: `Converged` when the
loop broke out on all-perfect scores, `Exhausted` when the iteration bound
ran out. -/
inductive LoopState where
  | Converged : LoopState
  | Exhausted : LoopState
deriving DecidableEq, Repr

/-- The `all_perfect` flag of one iteration (design_prompt_page.py lines
198-245): initialized `True`, cleared when some test case scores below 1.0
(or raises, which also records score 0.0 < 1.0). -/
def all_perfect (scores : List ℚ) : Bool :=
  scores.all (fun s => decide (¬ s < 1))

/-- The `for iteration in range(MAX_ITERATIONS)` loop of
`show_design_prompt_page` (design_prompt_page.py lines 173-258), with the
endpoint interactions of iteration `k` abstracted as `env k`: each executed
iteration appends its candidate to `intermediate_prompts`, and the loop
breaks out as soon as an iteration is all-perfect.  Returns the candidate
history together with the terminal state. -/
def designLoopFrom (env : Nat → IterObs) : Nat → Nat → List String × LoopState
  | 0, _ => ([], LoopState.Exhausted)
  | rem+1, k =>
    let it := env k
    if all_perfect it.scores then
      ([it.prompt], LoopState.Converged)
    else
      let rest := designLoopFrom env rem (k+1)
      (it.prompt :: rest.1, rest.2)

/-- The full design loop: `MAX_ITERATIONS` iterations starting at
iteration 0. -/
def designLoop (env : Nat → IterObs) : List String × LoopState :=
  designLoopFrom env MAX_ITERATIONS 0

/-- Store with a two-row family (root id 1 version 1, child id 2 version 2):
state before the C1 counterexample call. -/
def c1Db : DB :=
  { prompts := [⟨1, "n", "a", "t", "{}", 0, 1, none⟩,
                ⟨2, "n", "a", "t2", "{}", 0, 2, some 1⟩],
    test_cases := [], next_prompt_id := 3 }

/-- Edit of the ROOT of `c1Db`'s family (parent_id = 1), as create_page
builds when the user picks version 1 in the browse-page selector and edits
it. -/
def c1Edit : Prompt :=
  { id := none, name := "n", author := "a", template := "t3",
    example_values := "{}", upvotes := 0, version := none, parent_id := some 1 }

/-- Single-root store used to witness the amended C1 statement. -/
def c1WitnessDb : DB :=
  { prompts := [⟨1, "n", "a", "t", "{}", 0, 1, none⟩],
    test_cases := [], next_prompt_id := 2 }

/-- Edit based on the only row of `c1WitnessDb`. -/
def c1WitnessPrompt : Prompt :=
  { id := none, name := "n", author := "a", template := "t2",
    example_values := "{}", upvotes := 0, version := none, parent_id := some 1 }

/-- Three-level family chain (1 ← 2 ← 3) as update_prompt produces when each
edit is based on the previous newest version. -/
def c2Db : DB :=
  { prompts := [⟨1, "n", "a", "t", "{}", 0, 1, none⟩,
                ⟨2, "n", "a", "t2", "{}", 0, 2, some 1⟩,
                ⟨3, "n", "a", "t3", "{}", 0, 3, some 2⟩],
    test_cases := [], next_prompt_id := 4 }

/-- A stored base prompt (as loaded into `st.session_state.editing_prompt`):
id and version are concrete. -/
def c3Base : Prompt :=
  { id := some 1, name := "n", author := "a", template := "t",
    example_values := "{}", upvotes := 0, version := some 1, parent_id := none }

/-- Store with a root of version 5 and a child of version 1 (insertable via
two `save_prompt` calls): the deepest row is not the highest-version row. -/
def c4Db : DB :=
  { prompts := [⟨1, "n", "a", "t", "{}", 0, 5, none⟩,
                ⟨2, "n2", "a", "t2", "{}", 0, 1, some 1⟩],
    test_cases := [], next_prompt_id := 3 }

/-- Well-formed two-row family used to witness the amended C4 statement. -/
def c4WitnessDb : DB :=
  { prompts := [⟨1, "n", "a", "t", "{}", 0, 1, none⟩,
                ⟨2, "n", "a", "t2", "{}", 5, 2, some 1⟩],
    test_cases := [], next_prompt_id := 3 }

/-- Store with one root prompt and one test case referencing it. -/
def c5Db : DB :=
  { prompts := [⟨1, "n", "a", "t", "{}", 0, 1, none⟩],
    test_cases := [⟨1, 1, "{}", "out"⟩], next_prompt_id := 2 }

/-- The spec's validator scenario: `text` bound, `lang` bound to the empty
string. -/
def c6Values : List (String × Option String) :=
  [("text", some "hello"), ("lang", some "")]

/-- Two endpoints, the second of which times out. -/
def c7Env : Env := fun url _prompt _model =>
  if url = "a" then Outcome.ok "hi" else Outcome.err "timeout"

/-- Abstract loop environment in which iteration 3 (index 2) is the first
all-perfect iteration. -/
def c9WitnessEnv : Nat → IterObs := fun i =>
  if i = 2 then { prompt := "p3", scores := [1] } else { prompt := "p", scores := [0] }

/-- C3: the skip-if-unchanged guard of `_save_or_update_prompt` never fires:
re-saving `c3Base` with every edited field unchanged still compares unequal
under `Prompt.__eq__`, because the rebuilt prompt carries `version = None`
against the base's concrete version and `parent_id = base.id` against the
base's own parent, so `update_prompt` inserts a new version row even for a
no-op edit.  The claim (and the intent documented in `Prompt.__eq__`) says
insertion is skipped exactly when name/author/template/example-values are
unchanged. -/
theorem c3_skip_never_fires :
    save_skips_insert c3Base "n" "a" "t" "{}" = false ∧
    c3Base.name = "n" ∧ c3Base.author = "a" ∧ c3Base.template = "t" ∧
    c3Base.example_values = "{}" := by
  decide

/-- C5: evaluating `delete_prompt` at the failing input: the store holds one
root prompt (id 1) and one test case referencing it; deleting the root
removes the prompt row but leaves the test case untouched, because the
deleting connection never enables SQLite foreign-key enforcement, so the
declared `ON DELETE CASCADE` does not fire. -/
theorem c5_delete_no_cascade :
    (delete_prompt c5Db 1).prompts = [] ∧
    (delete_prompt c5Db 1).test_cases = c5Db.test_cases ∧
    c5Db.test_cases ≠ [] := by
  decide

/-- C6: the validator succeeds iff every extracted template variable is a
key of the mapping with a non-empty, non-null value, and on failure it
reports the first offending variable in the iteration order of the
extracted variable list. -/
theorem c6_validate (template_vars : List String) (values : List (String × Option String)) :
    ((validate_variables_with_template template_vars values).1 = true ↔
      ∀ v ∈ template_vars, ∃ s, values.lookup v = some (some s) ∧ s ≠ "") ∧
    ((validate_variables_with_template template_vars values).1 = false →
      template_vars.find? (offendingVar values) =
        some (validate_variables_with_template template_vars values).2) := by
  induction template_vars with
  | nil => simp [validate_variables_with_template]
  | cons v rest ih =>
    rcases h : values.lookup v with _ | ov
    · constructor
      · simp only [validate_variables_with_template, h]
        constructor
        · intro hfalse; cases hfalse
        · intro hall
          rcases hall v (List.mem_cons_self v rest) with ⟨s, hs, _⟩
          rw [h] at hs; cases hs
      · intro _
        simp [validate_variables_with_template, h, List.find?, offendingVar]
    · rcases ov with _ | s
      · constructor
        · simp only [validate_variables_with_template, h]
          constructor
          · intro hfalse; cases hfalse
          · intro hall
            rcases hall v (List.mem_cons_self v rest) with ⟨s, hs, _⟩
            rw [h] at hs; cases hs
        · intro _
          simp [validate_variables_with_template, h, List.find?, offendingVar]
      · by_cases hs : s = ""
        · subst hs
          constructor
          · simp only [validate_variables_with_template, h, if_pos rfl]
            constructor
            · intro hfalse; cases hfalse
            · intro hall
              rcases hall v (List.mem_cons_self v rest) with ⟨s', hs', hne⟩
              rw [h] at hs'
              cases hs'
              exact absurd rfl hne
          · intro _
            simp [validate_variables_with_template, h, List.find?, offendingVar]
        · have hstep : validate_variables_with_template (v :: rest) values =
              validate_variables_with_template rest values := by
            simp [validate_variables_with_template, h, hs]
          constructor
          · rw [hstep, ih.1]
            constructor
            · intro hall v' hv'
              rcases List.mem_cons.mp hv' with rfl | hmem
              · exact ⟨s, h, hs⟩
              · exact hall v' hmem
            · intro hall v' hv'
              exact hall v' (List.mem_cons_of_mem v hv')
          · intro hfalse
            rw [hstep] at hfalse
            have hoff : offendingVar values v = false := by
              simp [offendingVar, h, hs]
            rw [hstep]
            calc (v :: rest).find? (offendingVar values)
                = rest.find? (offendingVar values) := by
                  simp [List.find?, hoff]
              _ = some (validate_variables_with_template rest values).2 := ih.2 hfalse

/-- C6 witness: the spec's scenario — template variables `text` and `lang`,
`lang` bound to the empty string — fails and reports `lang`, the first
offending variable in iteration order. -/
theorem c6_validate_witness :
    ["text", "lang"].find? (offendingVar c6Values) =
      some (validate_variables_with_template ["text", "lang"] c6Values).2 :=
  (c6_validate ["text", "lang"] c6Values).2 (by decide)

/-- C8: the judge comparator always returns a score in the unit interval:
an out-of-range parsed reply is clamped to the nearer bound, an in-range
reply is returned unchanged, and an unparseable reply scores 0. -/
theorem c8_judge_clamped :
    (∀ p : Option ℚ, 0 ≤ compare_strings_with_llm_judge p ∧
      compare_strings_with_llm_judge p ≤ 1) ∧
    (∀ s : ℚ, 1 < s → compare_strings_with_llm_judge (some s) = 1) ∧
    (∀ s : ℚ, s < 0 → compare_strings_with_llm_judge (some s) = 0) ∧
    (∀ s : ℚ, 0 ≤ s → s ≤ 1 → compare_strings_with_llm_judge (some s) = s) ∧
    compare_strings_with_llm_judge none = 0 := by
  refine ⟨?_, ?_, ?_, ?_, rfl⟩
  · intro p
    rcases p with _ | s
    · exact ⟨le_refl 0, by norm_num [compare_strings_with_llm_judge]⟩
    · constructor
      · exact le_max_left 0 _
      · exact max_le (by norm_num) (min_le_left 1 s)
  · intro s hs
    simp only [compare_strings_with_llm_judge, clamp_score]
    rw [min_eq_left (le_of_lt hs)]
    exact max_eq_right (by norm_num)
  · intro s hs
    simp only [compare_strings_with_llm_judge, clamp_score]
    rw [min_eq_right (le_of_lt (lt_of_lt_of_le hs (by norm_num)))]
    exact max_eq_left (le_of_lt hs)
  · intro s h0 h1
    simp only [compare_strings_with_llm_judge, clamp_score]
    rw [min_eq_right h1]
    exact max_eq_right h0

/-- C8 witness: the spec's example — a judge reply parsing to 1.5 is
clamped to 1. -/
theorem c8_judge_clamped_witness :
    compare_strings_with_llm_judge (some (3/2)) = 1 :=
  c8_judge_clamped.2.1 (3/2) (by norm_num)

/-- Auxiliary: the last element of a cons is the last element of the tail,
falling back to the head. -/
theorem getLast?_cons_or {α : Type} (a : α) (l : List α) :
    (a :: l).getLast? = l.getLast?.or (some a) := by
  cases l with
  | nil => rfl
  | cons b t =>
    rw [List.getLast?_cons_cons]
    rcases h : (b :: t).getLast? with _ | y
    · rw [List.getLast?_eq_getLast (b :: t) (by simp)] at h; cases h
    · rfl

/-- Auxiliary: inserting a key into the Python dict makes it retrievable
with the inserted value. -/
theorem dictGet_dictInsert_self (d : List (String × String)) (k v : String) :
    dictGet (dictInsert d k v) k = some v := by
  unfold dictInsert
  by_cases hany : d.any (fun p => decide (p.1 = k)) = true
  · rw [if_pos hany]
    unfold dictGet
    rw [List.find?_map]
    have hpred : (fun p : String × String => decide (p.1 = k)) ∘
        (fun p : String × String => if p.1 = k then (k, v) else p) =
        fun p : String × String => decide (p.1 = k) := by
      funext p
      by_cases hp : p.1 = k <;> simp [hp]
    rw [hpred]
    rcases hfind : List.find? (fun p : String × String => decide (p.1 = k)) d with _ | q
    · rw [List.find?_eq_none] at hfind
      rcases List.any_eq_true.mp hany with ⟨x, hx, hpx⟩
      exact absurd hpx (hfind x hx)
    · have hq : q.1 = k := by simpa using List.find?_some hfind
      simp [hq]
  · rw [if_neg hany]
    unfold dictGet
    rw [List.find?_append]
    have hnone : List.find? (fun p : String × String => decide (p.1 = k)) d = none := by
      rw [List.find?_eq_none]
      intro x hx
      simp only [Bool.not_eq_true]
      by_contra hcontra
      exact hany (List.any_eq_true.mpr ⟨x, hx, by simpa using hcontra⟩)
    rw [hnone]
    simp [List.find?]

/-- Auxiliary: inserting one key leaves lookups of other keys unchanged. -/
theorem dictGet_dictInsert_other (d : List (String × String)) (k v k' : String)
    (hne : k' ≠ k) : dictGet (dictInsert d k v) k' = dictGet d k' := by
  unfold dictInsert
  by_cases hany : d.any (fun p => decide (p.1 = k)) = true
  · rw [if_pos hany]
    unfold dictGet
    rw [List.find?_map]
    have hpred : (fun p : String × String => decide (p.1 = k')) ∘
        (fun p : String × String => if p.1 = k then (k, v) else p) =
        fun p : String × String => decide (p.1 = k') := by
      funext p
      by_cases hp : p.1 = k
      · simp [hp, Ne.symm hne]
      · simp [hp]
    rw [hpred]
    rcases hfind : List.find? (fun p : String × String => decide (p.1 = k')) d with _ | q
    · rfl
    · have hq : q.1 = k' := by simpa using List.find?_some hfind
      have hqk : ¬ q.1 = k := fun hcontra => hne (hq ▸ hcontra)
      simp [hqk]
  · rw [if_neg hany]
    unfold dictGet
    rw [List.find?_append]
    rcases hfind : List.find? (fun p : String × String => decide (p.1 = k')) d with _ | q
    · simp [List.find?, Ne.symm hne]
    · rfl

/-- Auxiliary: one dict insertion grows the dict by at most one entry. -/
theorem dictInsert_length_le (d : List (String × String)) (k v : String) :
    (dictInsert d k v).length ≤ d.length + 1 := by
  unfold dictInsert
  by_cases hany : d.any (fun p => decide (p.1 = k)) = true
  · rw [if_pos hany, List.length_map]
    omega
  · rw [if_neg hany, List.length_append]
    simp

/-- Auxiliary: lookup through the Python-dict fold is the value of the last
binding of the key in the remaining input, falling back to the accumulated
dict. -/
theorem pyFold_get : ∀ (l : List (String × String)) (d : List (String × String)) (k : String),
    dictGet (l.foldl (fun d kv => dictInsert d kv.1 kv.2) d) k =
      (((l.filter (fun p => decide (p.1 = k))).map Prod.snd).getLast?).or (dictGet d k)
  | [], d, k => by simp
  | (k1, v1) :: t, d, k => by
    simp only [List.foldl_cons]
    rw [pyFold_get t (dictInsert d k1 v1) k]
    by_cases hk : k1 = k
    · subst hk
      rw [dictGet_dictInsert_self]
      have : List.filter (fun p : String × String => decide (p.1 = k1)) ((k1, v1) :: t) =
          (k1, v1) :: List.filter (fun p : String × String => decide (p.1 = k1)) t := by
        simp [List.filter]
      rw [this, List.map_cons, getLast?_cons_or, Option.or_assoc]
      rfl
    · rw [dictGet_dictInsert_other d k1 v1 k (Ne.symm hk)]
      have : List.filter (fun p : String × String => decide (p.1 = k)) ((k1, v1) :: t) =
          List.filter (fun p : String × String => decide (p.1 = k)) t := by
        simp [List.filter, hk]
      rw [this]

/-- Auxiliary: Python-dict lookup returns the value of the LAST binding of a
key in the input pair list. -/
theorem pyDict_get (l : List (String × String)) (k : String) :
    dictGet (pyDict l) k =
      ((l.filter (fun p => decide (p.1 = k))).map Prod.snd).getLast? := by
  unfold pyDict
  rw [pyFold_get l [] k]
  have h0 : dictGet [] k = none := rfl
  rw [h0, Option.or_none]

/-- Auxiliary: the Python dict of a pair list has at most as many entries as
the list. -/
theorem pyFold_length_le : ∀ (l : List (String × String)) (d : List (String × String)),
    (l.foldl (fun d kv => dictInsert d kv.1 kv.2) d).length ≤ d.length + l.length
  | [], d => by simp
  | (k1, v1) :: t, d => by
    simp only [List.foldl_cons, List.length_cons]
    calc (t.foldl (fun d kv => dictInsert d kv.1 kv.2) (dictInsert d k1 v1)).length
        ≤ (dictInsert d k1 v1).length + t.length := pyFold_length_le t _
      _ ≤ (d.length + 1) + t.length := by
          have := dictInsert_length_le d k1 v1
          omega
      _ = d.length + (t.length + 1) := by omega

/-- Auxiliary: elementwise view of `dict(zip(models, results))` when the
results come from mapping over `zip(urls, models)`: the dict input pairs
each zipped model with its own call's result. -/
theorem zip_map_snd (f : String × String → String) :
    ∀ (urls models : List String),
      models.zip ((urls.zip models).map f) =
        (urls.zip models).map (fun um => (um.2, f um))
  | [], models => by simp
  | u :: us, [] => by simp
  | u :: us, m :: ms => by
    simp only [List.zip_cons_cons, List.map_cons]
    rw [zip_map_snd f us ms]

/-- Auxiliary: if index `i` holds `x`, `x` satisfies the filter, and every
later element fails it, then `x` is the last element of the filtered list. -/
theorem filter_getLast_of_last_occurrence {α : Type} (p : α → Bool) :
    ∀ (l : List α) (i : Nat) (x : α), l[i]? = some x → p x = true →
      (∀ j y, i < j → l[j]? = some y → p y = false) →
      (l.filter p).getLast? = some x
  | [], i, x, hget, _, _ => by simp at hget
  | a :: t, 0, x, hget, hpx, hlater => by
    simp only [List.getElem?_cons_zero, Option.some.injEq] at hget
    subst hget
    have htail : t.filter p = [] := by
      rw [List.filter_eq_nil_iff]
      intro y hy
      rcases List.mem_iff_getElem.mp hy with ⟨j, hj, hyj⟩
      have hgj : t[j]? = some y := by
        rw [List.getElem?_eq_getElem hj, hyj]
      have := hlater (j + 1) y (Nat.succ_pos j) (by simpa [List.getElem?_cons_succ] using hgj)
      simp [this]
    rw [List.filter_cons, if_pos hpx, htail]
    rfl
  | a :: t, i + 1, x, hget, hpx, hlater => by
    simp only [List.getElem?_cons_succ] at hget
    have hrec : (t.filter p).getLast? = some x := by
      apply filter_getLast_of_last_occurrence p t i x hget hpx
      intro j y hj hy
      exact hlater (j + 1) y (by omega) (by simpa [List.getElem?_cons_succ] using hy)
    rw [List.filter_cons]
    by_cases hpa : p a = true
    · rw [if_pos hpa, getLast?_cons_or, hrec]
      rfl
    · rw [if_neg hpa]
      exact hrec

/-- C7: the fan-out dispatcher awaits every zipped endpoint call; an
endpoint whose call raises with message `e` contributes exactly the string
`"Error: " ++ e` as its result, and the returned mapping binds each model
identifier to the result of its LAST zipped call, so duplicate model
identifiers silently overwrite earlier results. -/
theorem c7_dispatcher (env : Env) (urls : List String) (prompt : String)
    (models : List String) :
    (∀ (i : Nat) (u m e : String), (urls.zip models)[i]? = some (u, m) →
      env u prompt m = Outcome.err e →
      (fanout_results env urls prompt models)[i]? = some ("Error: " ++ e)) ∧
    (∀ (i : Nat) (u m : String), (urls.zip models)[i]? = some (u, m) →
      (∀ (j : Nat) (u2 : String), i < j → (urls.zip models)[j]? ≠ some (u2, m)) →
      dictGet (test_multiple_models env urls prompt models) m =
        some (test_prompt_with_model env u prompt m)) := by
  constructor
  · intro i u m e hzip henv
    unfold fanout_results
    rw [List.getElem?_map, hzip]
    simp [test_prompt_with_model, henv]
  · intro i u m hzip hlast
    unfold test_multiple_models fanout_results
    rw [zip_map_snd _ urls models, pyDict_get]
    have hlastocc : ((((urls.zip models).map
        (fun um => (um.2, test_prompt_with_model env um.1 prompt um.2))).filter
          (fun pr => decide (pr.1 = m))).getLast?) =
        some (m, test_prompt_with_model env u prompt m) := by
      apply filter_getLast_of_last_occurrence
        (fun pr : String × String => decide (pr.1 = m))
        ((urls.zip models).map
          (fun um => (um.2, test_prompt_with_model env um.1 prompt um.2))) i
      · rw [List.getElem?_map, hzip]
        rfl
      · simp
      · intro j y hj hy
        rw [List.getElem?_map] at hy
        rcases Option.map_eq_some'.mp hy with ⟨um, hum, hgum⟩
        by_cases hm : um.2 = m
        · exfalso
          apply hlast j um.1 hj
          rw [hum]
          rw [show um = (um.1, m) from by rw [← hm]]
        · subst hgum
          simpa using hm
    rw [List.getLast?_map, hlastocc]
    rfl

/-- C7 witness: the spec's scenario — two endpoints, the second of which
times out: the second result is the string `"Error: timeout"` and the
mapping still binds the first model to its real response. -/
theorem c7_dispatcher_witness :
    (fanout_results c7Env ["a", "b"] "p" ["m1", "m2"])[1]? = some ("Error: " ++ "timeout") ∧
    dictGet (test_multiple_models c7Env ["a", "b"] "p" ["m1", "m2"]) "m1" =
      some (test_prompt_with_model c7Env "a" "p" "m1") := by
  constructor
  · exact (c7_dispatcher c7Env ["a", "b"] "p" ["m1", "m2"]).1 1 "b" "m2" "timeout"
      (by decide) (by decide)
  · apply (c7_dispatcher c7Env ["a", "b"] "p" ["m1", "m2"]).2 0 "a" "m1" (by decide)
    intro j u2 hj h
    match j, hj with
    | 1, _ =>
      rw [show ((["a", "b"].zip ["m1", "m2"])[1]? = some ("b", "m2")) from by decide] at h
      simp at h
    | (n+2), _ =>
      rw [show ((["a", "b"].zip ["m1", "m2"])[n+2]? = none) from by
        simp [List.getElem?_cons_succ]] at h
      cases h

/-- C10: calling the dispatcher with unequal-length url and model lists
issues exactly `min` of the two lengths of calls, pairing the lists
positionally and silently dropping the surplus of the longer list, and the
returned mapping has at most that many entries. -/
theorem c10_unequal_lists (env : Env) (urls : List String) (prompt : String)
    (models : List String) :
    (fanout_results env urls prompt models).length = min urls.length models.length ∧
    (∀ (i : Nat) (u m : String), (urls.zip models)[i]? = some (u, m) →
      (fanout_results env urls prompt models)[i]? =
        some (test_prompt_with_model env u prompt m)) ∧
    (test_multiple_models env urls prompt models).length ≤
      min urls.length models.length := by
  refine ⟨?_, ?_, ?_⟩
  · simp [fanout_results, List.length_zip]
  · intro i u m hzip
    unfold fanout_results
    rw [List.getElem?_map, hzip]
    rfl
  · unfold test_multiple_models
    have h1 : (pyDict (models.zip (fanout_results env urls prompt models))).length ≤
        (models.zip (fanout_results env urls prompt models)).length := by
      have := pyFold_length_le (models.zip (fanout_results env urls prompt models)) []
      simpa [pyDict] using this
    have h2 : (models.zip (fanout_results env urls prompt models)).length =
        min models.length (min urls.length models.length) := by
      rw [List.length_zip]
      congr 1
      simp [fanout_results, List.length_zip]
    rw [h2] at h1
    exact le_trans h1 (by omega)

/-- C10 witness: three urls against a single model identifier — exactly one
call is issued, paired positionally, and the dict holds at most one entry. -/
theorem c10_unequal_lists_witness :
    (fanout_results c7Env ["a", "b", "c"] "p" ["m1"]).length = min 3 1 ∧
    (fanout_results c7Env ["a", "b", "c"] "p" ["m1"])[0]? =
      some (test_prompt_with_model c7Env "a" "p" "m1") ∧
    (test_multiple_models c7Env ["a", "b", "c"] "p" ["m1"]).length ≤ min 3 1 := by
  refine ⟨(c10_unequal_lists c7Env ["a", "b", "c"] "p" ["m1"]).1, ?_, 
    (c10_unequal_lists c7Env ["a", "b", "c"] "p" ["m1"]).2.2⟩
  exact (c10_unequal_lists c7Env ["a", "b", "c"] "p" ["m1"]).2.1 0 "a" "m1" (by decide)

/-- Auxiliary: with unique primary-key ids, the WHERE id = b filter of
`update_prompt` selects exactly the one row carrying id b. -/
theorem filter_parent_singleton : ∀ (l : List PromptRow) (b : Nat) (r : PromptRow),
    (l.map (fun x => x.id)).Nodup → r ∈ l → r.id = b →
    l.filter (fun x => decide (some b = some x.id)) = [r]
  | [], _, _, _, hr, _ => absurd hr (List.not_mem_nil _)
  | h :: t, b, r, hnd, hr, hid => by
    rcases List.nodup_cons.mp hnd with ⟨hhead, htail⟩
    by_cases hb : b = h.id
    · have hrh : r = h := by
        rcases List.mem_cons.mp hr with rfl | hrt
        · rfl
        · exfalso
          apply hhead
          exact List.mem_map.mpr ⟨r, hrt, by rw [hid, hb]⟩
      subst hrh
      have hfilt : t.filter (fun x => decide (some b = some x.id)) = [] := by
        rw [List.filter_eq_nil_iff]
        intro x hx
        simp only [decide_eq_true_eq, Option.some.injEq]
        intro hcontra
        exact hhead (List.mem_map.mpr ⟨x, hx, by rw [← hcontra, hb]⟩)
      rw [List.filter_cons, if_pos (by simp [hb]), hfilt]
    · have hrt : r ∈ t := by
        rcases List.mem_cons.mp hr with rfl | hrt
        · exact absurd hid.symm hb
        · exact hrt
      rw [List.filter_cons, if_neg (by simp [hb]),
        filter_parent_singleton t b r htail hrt hid]

/-- C1 counterexample: in the two-row family of `c1Db` (both rows resolve to
root 1, versions 1 and 2), basing an edit on the ROOT makes `update_prompt`
insert a row with version 2 — version 2 is REUSED within the family and the
inserted version is not the family maximum (2) plus one. -/
theorem c1_counterexample :
    (∀ r ∈ c1Db.prompts, hierKey c1Db r = some 1) ∧
    ((update_prompt c1Db c1Edit).1.prompts.find? (fun r => decide (r.id = 3))).map
      (fun r => r.version) = some 2 ∧
    2 ∈ c1Db.prompts.map (fun r => r.version) := by
  decide

/-- C1 (amended): `update_prompt` assigns the new row the version of the
single row whose id equals the edited prompt's `parent_id`, plus one — so
the new version strictly exceeds the base row's version, but it is not
`max(family) + 1` and family-wide uniqueness is not guaranteed (see the
counterexample). -/
theorem c1_version_from_base (db : DB) (p : Prompt) (b : Nat) (r : PromptRow)
    (hnd : (db.prompts.map (fun x => x.id)).Nodup)
    (hp : p.parent_id = some b) (hr : r ∈ db.prompts) (hid : r.id = b)
    (hv : 1 ≤ r.version) :
    ∃ row ∈ (update_prompt db p).1.prompts,
      row.id = (update_prompt db p).2 ∧ row.version = r.version + 1 ∧
      row.parent_id = p.parent_id := by
  have hvne : ¬ r.version = 0 := by omega
  simp only [update_prompt, hp]
  rw [filter_parent_singleton db.prompts b r hnd hr hid]
  refine ⟨_, List.mem_append_right _ (List.mem_singleton.mpr rfl), rfl, ?_, rfl⟩
  show (match ([r].map (fun x => x.version)).max? with
    | none => 1
    | some v => if v = 0 then 1 else v) + 1 = r.version + 1
  have hmax : ([r].map (fun x => x.version)).max? = some r.version := rfl
  rw [hmax]
  simp [hvne]

/-- C1 witness: updating the single-row store `c1WitnessDb` from its root
(version 1) inserts a row with version 2 and parent 1. -/
theorem c1_version_from_base_witness :
    ∃ row ∈ (update_prompt c1WitnessDb c1WitnessPrompt).1.prompts,
      row.id = (update_prompt c1WitnessDb c1WitnessPrompt).2 ∧
      row.version = 1 + 1 ∧ row.parent_id = c1WitnessPrompt.parent_id :=
  c1_version_from_base c1WitnessDb c1WitnessPrompt 1
    ⟨1, "n", "a", "t", "{}", 0, 1, none⟩
    (by decide) (by decide) (by decide) (by decide) (by decide)

/-- C2 counterexample: in the three-level chain of `c2Db`, row 3 belongs to
the family rooted at 1 (its hierarchy key equals the root's), yet
`get_prompt_versions` called with the ROOT id 1 returns only rows 2 and 1 —
the full family is NOT returned regardless of which family id is passed. -/
theorem c2_counterexample :
    (⟨3, "n", "a", "t3", "{}", 0, 3, some 2⟩ : PromptRow) ∈ c2Db.prompts ∧
    hierKey c2Db ⟨3, "n", "a", "t3", "{}", 0, 3, some 2⟩ =
      hierKey c2Db ⟨1, "n", "a", "t", "{}", 0, 1, none⟩ ∧
    (⟨3, "n", "a", "t3", "{}", 0, 3, some 2⟩ : PromptRow) ∉ get_prompt_versions c2Db 1 ∧
    (get_prompt_versions c2Db 1).map (fun r => r.id) = [2, 1] := by
  decide

/-- C2 (amended): `get_prompt_versions(pid)` returns exactly the rows
within ONE parent-link hop of the passed id — the row itself, its direct
children, and its direct parent — ordered by version descending; family
members two or more hops away are missed. -/
theorem c2_returned_set (db : DB) (pid : Nat) :
    (∀ r : PromptRow, r ∈ get_prompt_versions db pid ↔ r ∈ db.prompts ∧
      (r.id = pid ∨ r.parent_id = some pid ∨
        ∃ q ∈ db.prompts, q.id = pid ∧ q.parent_id = some r.id)) ∧
    List.Pairwise (fun a b => b.version ≤ a.version) (get_prompt_versions db pid) := by
  constructor
  · intro r
    unfold get_prompt_versions
    rw [List.mem_insertionSort, List.mem_filter, decide_eq_true_eq]
    constructor
    · rintro ⟨hmem, hcond⟩
      refine ⟨hmem, ?_⟩
      rcases hcond with h1 | h2 | ⟨q, hq, hqc, hqp⟩
      · exact Or.inl h1
      · exact Or.inr (Or.inl h2)
      · rcases hqc with hqid | hqpar
        · exact Or.inr (Or.inr ⟨q, hq, hqid, hqp⟩)
        · rw [hqpar] at hqp
          exact Or.inl (Option.some_injective _ hqp).symm
    · rintro ⟨hmem, h1 | h2 | ⟨q, hq, hqid, hqp⟩⟩
      · exact ⟨hmem, Or.inl h1⟩
      · exact ⟨hmem, Or.inr (Or.inl h2)⟩
      · exact ⟨hmem, Or.inr (Or.inr ⟨q, hq, Or.inl hqid, hqp⟩)⟩
  · exact List.sorted_insertionSort byVersionDesc _

/-- Auxiliary: for judge scores lying in the unit interval (as
`compare_strings_with_llm_judge` guarantees), the code's `all_perfect` flag
— no score strictly below 1 — holds exactly when every score equals 1. -/
theorem all_perfect_iff (scores : List ℚ) (hb : ∀ s ∈ scores, 0 ≤ s ∧ s ≤ 1) :
    all_perfect scores = true ↔ ∀ s ∈ scores, s = 1 := by
  unfold all_perfect
  rw [List.all_eq_true]
  constructor
  · intro h s hs
    have h1 := (hb s hs).2
    have h2 := h s hs
    rw [decide_eq_true_eq] at h2
    exact le_antisymm h1 (not_lt.mp h2)
  · intro h s hs
    rw [decide_eq_true_eq, h s hs]
    exact lt_irrefl 1

/-- Auxiliary: a run in which no remaining iteration is all-perfect uses up
its whole budget and ends `Exhausted` with one history entry per
iteration. -/
theorem designLoopFrom_exhaust (env : Nat → IterObs) : ∀ (rem start : Nat),
    (∀ j, j < rem → all_perfect (env (start + j)).scores = false) →
    (designLoopFrom env rem start).2 = LoopState.Exhausted ∧
    (designLoopFrom env rem start).1.length = rem
  | 0, _, _ => ⟨rfl, rfl⟩
  | rem+1, start, h => by
    have h0 : all_perfect (env start).scores = false := by
      have := h 0 (Nat.succ_pos rem)
      simpa using this
    have ih := designLoopFrom_exhaust env rem (start + 1) (by
      intro j hj
      rw [show start + 1 + j = start + (j + 1) from by omega]
      exact h (j + 1) (by omega))
    simp only [designLoopFrom, h0]
    simpa using ih

/-- Auxiliary: if iteration `k` (0-based, within budget) is the first
all-perfect one, the loop ends `Converged` with `k + 1` history entries. -/
theorem designLoopFrom_converge (env : Nat → IterObs) : ∀ (rem start k : Nat),
    k < rem →
    (∀ j, j < k → all_perfect (env (start + j)).scores = false) →
    all_perfect (env (start + k)).scores = true →
    (designLoopFrom env rem start).2 = LoopState.Converged ∧
    (designLoopFrom env rem start).1.length = k + 1
  | 0, _, k, hk, _, _ => absurd hk (Nat.not_lt_zero k)
  | rem+1, start, 0, _, _, hper => by
    have h0 : all_perfect (env start).scores = true := by simpa using hper
    simp [designLoopFrom, h0]
  | rem+1, start, k+1, hk, hfail, hper => by
    have h0 : all_perfect (env start).scores = false := by
      have := hfail 0 (Nat.succ_pos k)
      simpa using this
    have ih := designLoopFrom_converge env rem (start + 1) k (by omega)
      (by
        intro j hj
        rw [show start + 1 + j = start + (j + 1) from by omega]
        exact hfail (j + 1) (by omega))
      (by
        rw [show start + 1 + k = start + (k + 1) from by omega]
        exact hper)
    simp only [designLoopFrom, h0]
    simpa using ih

/-- C9: for scores produced by the clamped judge, if iteration `k`
(1-based, within the budget) is the first whose test cases all score
exactly 1, the design loop halts Converged with exactly `k` candidate
prompts in its history; if no iteration is all-perfect, it runs exactly
`MAX_ITERATIONS` iterations and ends Exhausted. -/
theorem c9_design_loop (env : Nat → IterObs)
    (hb : ∀ i, i < MAX_ITERATIONS → ∀ s ∈ (env i).scores, 0 ≤ s ∧ s ≤ 1) :
    (∀ k, 1 ≤ k → k ≤ MAX_ITERATIONS →
      (∀ j, j < k - 1 → ¬ (∀ s ∈ (env j).scores, s = 1)) →
      (∀ s ∈ (env (k - 1)).scores, s = 1) →
      (designLoop env).2 = LoopState.Converged ∧ (designLoop env).1.length = k) ∧
    ((∀ j, j < MAX_ITERATIONS → ¬ (∀ s ∈ (env j).scores, s = 1)) →
      (designLoop env).2 = LoopState.Exhausted ∧
      (designLoop env).1.length = MAX_ITERATIONS) := by
  constructor
  · intro k hk1 hk2 hfirst hperf
    have hres := designLoopFrom_converge env MAX_ITERATIONS 0 (k - 1) (by
        unfold MAX_ITERATIONS at hk2 ⊢; omega)
      (by
        intro j hj
        rw [Nat.zero_add]
        have hjm : j < MAX_ITERATIONS := by unfold MAX_ITERATIONS at hk2 ⊢; omega
        rcases Bool.eq_false_or_eq_true (all_perfect (env j).scores) with ht | hf
        · exact absurd ((all_perfect_iff (env j).scores (hb j hjm)).mp ht)
            (hfirst j hj)
        · exact hf)
      (by
        rw [Nat.zero_add]
        have hkm : k - 1 < MAX_ITERATIONS := by unfold MAX_ITERATIONS at hk2 ⊢; omega
        exact (all_perfect_iff (env (k - 1)).scores (hb (k - 1) hkm)).mpr hperf)
    refine ⟨hres.1, ?_⟩
    rw [show (designLoop env).1.length = k - 1 + 1 from hres.2]
    omega
  · intro hfail
    apply designLoopFrom_exhaust env MAX_ITERATIONS 0
    intro j hj
    rw [Nat.zero_add]
    rcases Bool.eq_false_or_eq_true (all_perfect (env j).scores) with ht | hf
    · exact absurd ((all_perfect_iff (env j).scores (hb j hj)).mp ht) (hfail j hj)
    · exact hf

/-- C9 witness: in the environment whose iteration 3 (index 2) is the first
all-perfect one, the loop converges with exactly 3 history entries — the
spec's `iteration 3 of 10` scenario. -/
theorem c9_design_loop_witness :
    (designLoop c9WitnessEnv).2 = LoopState.Converged ∧
    (designLoop c9WitnessEnv).1.length = 3 :=
  (c9_design_loop c9WitnessEnv (by decide)).1 3 (by decide) (by decide)
    (by decide) (by decide)

/-- Auxiliary: the window ordering never ranks a row strictly above
itself. -/
theorem betterRow_irrefl (db : DB) (a : PromptRow) : betterRow db a a = false := by
  simp [betterRow]

/-- Auxiliary: the window ordering is asymmetric. -/
theorem betterRow_asymm (db : DB) {a b : PromptRow} (h : betterRow db a b = true) :
    betterRow db b a = false := by
  simp only [betterRow, decide_eq_true_eq, decide_eq_false_iff_not] at h ⊢
  omega

/-- Auxiliary: being not-outranked is transitive. -/
theorem betterRow_notlt_trans (db : DB) {a b c : PromptRow}
    (h1 : betterRow db a b = false) (h2 : betterRow db b c = false) :
    betterRow db a c = false := by
  simp only [betterRow, decide_eq_false_iff_not] at h1 h2 ⊢
  omega

/-- Auxiliary: on a nonempty partition, `pickBest` returns a member that no
member of the partition outranks. -/
theorem pickBest_spec (db : DB) (l : List PromptRow) (hne : l ≠ []) :
    ∃ b, pickBest db l = some b ∧ b ∈ l ∧ ∀ x ∈ l, betterRow db b x = false := by
  induction l with
  | nil => exact absurd rfl hne
  | cons x rest ih =>
    by_cases hr : rest = []
    · subst hr
      refine ⟨x, by simp [pickBest], List.mem_singleton.mpr rfl, ?_⟩
      intro z hz
      rw [List.mem_singleton.mp hz]
      exact betterRow_irrefl db x
    · rcases ih hr with ⟨b, hb, hbmem, hbbest⟩
      by_cases hx : betterRow db x b = true
      · refine ⟨b, ?_, List.mem_cons_of_mem x hbmem, ?_⟩
        · simp [pickBest, hb, hx]
        · intro z hz
          rcases List.mem_cons.mp hz with rfl | hzr
          · exact betterRow_asymm db hx
          · exact hbbest z hzr
      · have hxf : betterRow db x b = false := Bool.eq_false_iff.mpr hx
        refine ⟨x, ?_, List.mem_cons_self x rest, ?_⟩
        · simp [pickBest, hb, hxf]
        · intro z hz
          rcases List.mem_cons.mp hz with hzx | hzr
          · rw [hzx]
            exact betterRow_irrefl db x
          · exact betterRow_notlt_trans db hxf (hbbest z hzr)

/-- Auxiliary: with unique primary-key ids, `find?` on an id locates the one
row carrying it. -/
theorem find_id_unique : ∀ (l : List PromptRow) (q : PromptRow) (p : Nat),
    (l.map (fun x => x.id)).Nodup → q ∈ l → q.id = p →
    l.find? (fun x => decide (x.id = p)) = some q
  | [], q, _, _, hq, _ => absurd hq (List.not_mem_nil q)
  | h :: t, q, p, hnd, hq, hid => by
    rcases List.nodup_cons.mp hnd with ⟨hhead, htail⟩
    by_cases hh : h.id = p
    · have hqh : q = h := by
        rcases List.mem_cons.mp hq with rfl | hqt
        · rfl
        · exact absurd (List.mem_map.mpr ⟨q, hqt, by rw [hid, ← hh]⟩) hhead
      subst hqh
      simp [List.find?, hh]
    · have hqt : q ∈ t := by
        rcases List.mem_cons.mp hq with rfl | hqt
        · exact absurd (hid ▸ rfl) hh
        · exact hqt
      rw [List.find?_cons_of_neg t (by simp [hh])]
      exact find_id_unique t q p htail hqt hid

/-- Auxiliary: a chain-consistent row has a positive version. -/
theorem chainOk_version_pos {prompts : List PromptRow} {r : PromptRow}
    (h : versionChainOk prompts r = true) : 1 ≤ r.version := by
  unfold versionChainOk at h
  rcases hp : r.parent_id with _ | p
  · rw [hp] at h
    simp only [decide_eq_true_eq] at h
    omega
  · rw [hp] at h
    rcases List.any_eq_true.mp h with ⟨q, _, hq⟩
    rw [Bool.and_eq_true, decide_eq_true_eq, decide_eq_true_eq] at hq
    omega

/-- Auxiliary: a chain-consistent row with a parent link has its parent row
in the table, one version below it. -/
theorem chainOk_parent {prompts : List PromptRow} {r : PromptRow}
    (h : versionChainOk prompts r = true) {p : Nat} (hp : r.parent_id = some p) :
    ∃ q ∈ prompts, q.id = p ∧ r.version = q.version + 1 := by
  unfold versionChainOk at h
  rw [hp] at h
  rcases List.any_eq_true.mp h with ⟨q, hqm, hq⟩
  rw [Bool.and_eq_true, decide_eq_true_eq, decide_eq_true_eq] at hq
  exact ⟨q, hqm, hq.1, hq.2⟩

/-- Auxiliary: a chain-consistent parentless row has version 1. -/
theorem chainOk_root {prompts : List PromptRow} {r : PromptRow}
    (h : versionChainOk prompts r = true) (hp : r.parent_id = none) :
    r.version = 1 := by
  unfold versionChainOk at h
  rw [hp] at h
  simpa using h

/-- Auxiliary: under chain consistency and unique ids, walking up the parent
links of a row reaches a root in exactly `version` steps — the CTE level of
the row equals its version. -/
theorem walkUp_version (prompts : List PromptRow)
    (hnd : (prompts.map (fun x => x.id)).Nodup)
    (hchain : ∀ r ∈ prompts, versionChainOk prompts r = true) :
    ∀ (fuel : Nat) (r : PromptRow), r ∈ prompts → r.version ≤ fuel →
      ∃ rt, walkUp prompts fuel r = some (rt, r.version) := by
  intro fuel
  induction fuel with
  | zero =>
    intro r hr hv
    have := chainOk_version_pos (hchain r hr)
    omega
  | succ f ihf =>
    intro r hr hv
    rcases hp : r.parent_id with _ | p
    · have h1 := chainOk_root (hchain r hr) hp
      refine ⟨r.id, ?_⟩
      rw [h1]
      simp [walkUp, hp]
    · rcases chainOk_parent (hchain r hr) hp with ⟨q, hqm, hqid, hqv⟩
      have hfind := find_id_unique prompts q p hnd hqm hqid
      rcases ihf q hqm (by omega) with ⟨rt, hwalk⟩
      refine ⟨rt, ?_⟩
      rw [hqv]
      simp [walkUp, hp, hfind, hwalk]

/-- Auxiliary: under chain consistency the versions 1..v of a row's ancestor
chain all occur in the table. -/
theorem versions_cover (prompts : List PromptRow)
    (hchain : ∀ r ∈ prompts, versionChainOk prompts r = true) :
    ∀ (v : Nat) (r : PromptRow), r ∈ prompts → r.version = v →
      Finset.Icc 1 v ⊆ (prompts.map (fun x => x.version)).toFinset := by
  intro v
  induction v using Nat.strong_induction_on with
  | _ v ih =>
    intro r hr hv
    rcases hp : r.parent_id with _ | p
    · have h1 := chainOk_root (hchain r hr) hp
      intro x hx
      rw [Finset.mem_Icc] at hx
      rw [List.mem_toFinset]
      exact List.mem_map.mpr ⟨r, hr, by omega⟩
    · rcases chainOk_parent (hchain r hr) hp with ⟨q, hqm, _, hqv⟩
      intro x hx
      rw [Finset.mem_Icc] at hx
      by_cases hxv : x = v
      · rw [List.mem_toFinset]
        exact List.mem_map.mpr ⟨r, hr, by omega⟩
      · have hlt : v - 1 < v := by omega
        exact ih (v - 1) hlt q hqm (by omega) (by rw [Finset.mem_Icc]; omega)

/-- Auxiliary: under chain consistency every version is bounded by the table
size, so table-size fuel suffices for the hierarchy walk. -/
theorem version_le_length (prompts : List PromptRow)
    (hchain : ∀ r ∈ prompts, versionChainOk prompts r = true)
    (r : PromptRow) (hr : r ∈ prompts) : r.version ≤ prompts.length := by
  have hsub := versions_cover prompts hchain r.version r hr rfl
  have hcard := Finset.card_le_card hsub
  rw [Nat.card_Icc] at hcard
  have hlen : (prompts.map (fun x => x.version)).toFinset.card ≤ prompts.length := by
    calc (prompts.map (fun x => x.version)).toFinset.card
        ≤ (prompts.map (fun x => x.version)).length := (prompts.map _).toFinset_card_le
      _ = prompts.length := List.length_map _ _
  omega

/-- Auxiliary: the hierarchy entry of a well-formed row is its root together
with a level equal to its version. -/
theorem rootLevel_version (db : DB)
    (hnd : (db.prompts.map (fun x => x.id)).Nodup)
    (hchain : ∀ r ∈ db.prompts, versionChainOk db.prompts r = true)
    (r : PromptRow) (hr : r ∈ db.prompts) :
    ∃ rt, rootLevel db r = some (rt, r.version) :=
  walkUp_version db.prompts hnd hchain db.prompts.length r hr
    (version_le_length db.prompts hchain r hr)

/-- Auxiliary: membership in the latest-versions result is membership in the
table together with being the selected row of one's partition. -/
theorem mem_get_latest_iff (db : DB) (s : PromptRow) :
    s ∈ get_latest_versions db ↔
      s ∈ db.prompts ∧ bestOf db (hierKey db s) = some s := by
  unfold get_latest_versions
  rw [List.mem_insertionSort, List.mem_filter, decide_eq_true_eq]

/-- C4 counterexample: in `c4Db` both rows belong to the family rooted at 1,
yet `get_latest_versions` returns the level-2 row of version 1 — NOT the
family's maximum version 5: the window orders by hierarchy depth first and
only then by version. -/
theorem c4_counterexample :
    (get_latest_versions c4Db).map (fun r => r.version) = [1] ∧
    (⟨1, "n", "a", "t", "{}", 0, 5, none⟩ : PromptRow) ∈ c4Db.prompts ∧
    hierKey c4Db ⟨2, "n2", "a", "t2", "{}", 0, 1, some 1⟩ =
      hierKey c4Db ⟨1, "n", "a", "t", "{}", 0, 5, none⟩ := by
  decide

/-- C4 (amended): on a store with unique ids whose rows are chain-consistent
(each row's version is its parent row's version plus one, roots carry
version 1 — the invariant the application's save and update paths maintain),
`get_latest_versions` returns exactly one row per family (rows sharing a
hierarchy root), that row carries the maximum version of its family, and the
result is ordered by upvotes descending.  Without chain consistency the query
instead favours hierarchy depth over version (see the counterexample). -/
theorem c4_latest_amended (db : DB)
    (hnd : (db.prompts.map (fun x => x.id)).Nodup)
    (hchain : ∀ r ∈ db.prompts, versionChainOk db.prompts r = true) :
    (∀ r ∈ db.prompts, ∃! s, s ∈ get_latest_versions db ∧
      hierKey db s = hierKey db r) ∧
    (∀ s ∈ get_latest_versions db, ∀ r ∈ db.prompts,
      hierKey db r = hierKey db s → r.version ≤ s.version) ∧
    List.Pairwise (fun a b => b.upvotes ≤ a.upvotes) (get_latest_versions db) := by
  refine ⟨?_, ?_, ?_⟩
  · intro r hr
    have hrP : r ∈ db.prompts.filter
        (fun x => decide (hierKey db x = hierKey db r)) :=
      List.mem_filter.mpr ⟨hr, by simp⟩
    have hPne : db.prompts.filter
        (fun x => decide (hierKey db x = hierKey db r)) ≠ [] := by
      intro hcon
      rw [hcon] at hrP
      exact List.not_mem_nil r hrP
    obtain ⟨b, hpick, hbmem, _⟩ := pickBest_spec db _ hPne
    have hbP := List.mem_filter.mp hbmem
    have hbk : hierKey db b = hierKey db r := by simpa using hbP.2
    have hbest : bestOf db (hierKey db r) = some b := hpick
    refine ⟨b, ⟨?_, hbk⟩, ?_⟩
    · rw [mem_get_latest_iff]
      refine ⟨hbP.1, ?_⟩
      rw [hbk]
      exact hbest
    · rintro y ⟨hy, hyk⟩
      rw [mem_get_latest_iff] at hy
      have hy2 : bestOf db (hierKey db r) = some y := by
        rw [← hyk]
        exact hy.2
      rw [hbest] at hy2
      exact (Option.some_inj.mp hy2).symm
  · intro s hs r hr hk
    rw [mem_get_latest_iff] at hs
    have hsP : s ∈ db.prompts.filter
        (fun x => decide (hierKey db x = hierKey db s)) :=
      List.mem_filter.mpr ⟨hs.1, by simp⟩
    have hPne : db.prompts.filter
        (fun x => decide (hierKey db x = hierKey db s)) ≠ [] := by
      intro hcon
      rw [hcon] at hsP
      exact List.not_mem_nil s hsP
    obtain ⟨b, hpick, _, hbbest⟩ := pickBest_spec db _ hPne
    have hbs : b = s := by
      have hbest : pickBest db (db.prompts.filter
          (fun x => decide (hierKey db x = hierKey db s))) = some s := hs.2
      rw [hpick] at hbest
      exact Option.some_inj.mp hbest
    have hrP : r ∈ db.prompts.filter
        (fun x => decide (hierKey db x = hierKey db s)) :=
      List.mem_filter.mpr ⟨hr, by simp [hk]⟩
    have hbr := hbbest r hrP
    rw [hbs] at hbr
    obtain ⟨rts, hrls⟩ := rootLevel_version db hnd hchain s hs.1
    obtain ⟨rtr, hrlr⟩ := rootLevel_version db hnd hchain r hr
    have hls : levelKey db s = (s.version, s.version) := by
      simp [levelKey, hrls]
    have hlr : levelKey db r = (r.version, r.version) := by
      simp [levelKey, hrlr]
    simp only [betterRow, hls, hlr, decide_eq_false_iff_not] at hbr
    omega
  · exact List.sorted_insertionSort byUpvotesDesc _

/-- C4 witness: on the well-formed two-row family `c4WitnessDb` the amended
statement holds with both hypotheses discharged by computation. -/
theorem c4_latest_amended_witness :
    (∀ r ∈ c4WitnessDb.prompts, ∃! s, s ∈ get_latest_versions c4WitnessDb ∧
      hierKey c4WitnessDb s = hierKey c4WitnessDb r) ∧
    (∀ s ∈ get_latest_versions c4WitnessDb, ∀ r ∈ c4WitnessDb.prompts,
      hierKey c4WitnessDb r = hierKey c4WitnessDb s → r.version ≤ s.version) ∧
    List.Pairwise (fun a b => b.upvotes ≤ a.upvotes)
      (get_latest_versions c4WitnessDb) :=
  c4_latest_amended c4WitnessDb (by decide) (by decide)

/-- C2 witness: the amended characterization evaluated on the concrete
three-level chain with the root id passed. -/
theorem c2_returned_set_witness :
    (∀ r : PromptRow, r ∈ get_prompt_versions c2Db 1 ↔ r ∈ c2Db.prompts ∧
      (r.id = 1 ∨ r.parent_id = some 1 ∨
        ∃ q ∈ c2Db.prompts, q.id = 1 ∧ q.parent_id = some r.id)) ∧
    List.Pairwise (fun a b => b.version ≤ a.version) (get_prompt_versions c2Db 1) :=
  c2_returned_set c2Db 1
